import Mathlib

/-!
# Verification of the rolling factor-analysis backtest engine

Shallow embedding of `基于因子分析模型的量化选股策略研究.py` (the quarterly
factor-analysis stock-selection backtest).  Conventions:

* Money, prices, shares and scores are rationals (`ℚ`), standing for the
  script's floats.  The float value `NaN` (pandas' missing-value marker, which
  the script manipulates via `pd.notna`, `np.nan` and `Series.get` defaults)
  is modelled explicitly: a cell value is a `ValF := Option ℚ`, with `none`
  playing the role of NaN, and the arithmetic on `ValF` propagates `none`
  exactly as IEEE arithmetic propagates NaN through `+`, `-`, `*`, `/`.
* A pandas `Series` row of the price table (one valuation date) is a
  `Snapshot`, an association list from security name to cell value: a name may
  be absent (not a column of the table) or present with value `none` (a NaN
  cell).  `Series.get name default` is `sget`.
* Dates are `(year, month, day)` triples ordered lexicographically; pandas
  `DateOffset(months = k)` subtraction is `subMonths` (shift months, clamp the
  day to the target month's length) and `MonthEnd(0)` applied to the first of
  a month is `monthEndDate`.
* Python dict assignment on `portfolio_history` / `current_portfolio` is
  `dictSet` on an insertion-ordered association list.
* The one numerical component that cannot be embedded — the maximum-likelihood
  `FactorAnalysis` fit of scikit-learn — is abstracted: the backtest loop is
  parameterised by the per-quarter outcome `fa : ℕ → Option (List String)`
  (the ranked security names, `none` when the fit raised and
  `rolling_factor_analysis_and_ranking` returned `(None, None)`), and the
  factor-count selection / weighting / ranking arithmetic that surrounds the
  fit is embedded over the fit's numeric outputs (`eig_vals`, `factor_scores`)
  taken as inputs.
-/

/-- Float values as stored in the script's pandas structures: `some q` is an
ordinary number, `none` is NaN (pandas missing value). -/
abbrev ValF : Type := Option ℚ

/-- Float addition: NaN propagates. -/
def addF : ValF → ValF → ValF
  | some a, some b => some (a + b)
  | _, _ => none

/-- Float subtraction: NaN propagates. -/
def subF : ValF → ValF → ValF
  | some a, some b => some (a - b)
  | _, _ => none

/-- Float multiplication: NaN propagates. -/
def mulF : ValF → ValF → ValF
  | some a, some b => some (a * b)
  | _, _ => none

/-- Float division: NaN propagates.  Division by zero is also sent to `none`;
in the script every reachable denominator (`len(tradable_names) ≥ 1`, a price
that passed the `> 0` filter) is nonzero, so this collapse is never exercised
by the simulation. -/
def divF : ValF → ValF → ValF
  | some a, some b => if b = 0 then none else some (a / b)
  | _, _ => none

/-- One valuation-date row of the price table: security name ↦ cell value.
A name may be absent (no such column) or present with a NaN cell. -/
abbrev Snapshot : Type := List (String × ValF)

/-- `Series.get name default` (the default the script passes is a plain
number, `0` or `np.nan`): the stored cell — NaN included — if the name is a
key, otherwise the default. -/
def sget (snap : Snapshot) (name : String) (dflt : ValF) : ValF :=
  (List.lookup name snap).getD dflt

/-- Python dict assignment `d[k] = v` on an insertion-ordered association
list: overwrite in place if the key exists, else append. -/
def dictSet {β : Type} (l : List (String × β)) (k : String) (v : β) :
    List (String × β) :=
  if l.any (fun p => p.1 == k) then
    l.map (fun p => if p.1 == k then (k, v) else p)
  else
    l ++ [(k, v)]

/-- Calendar date, `month ∈ 1..12`, `day ∈ 1..31` in meaningful values. -/
structure Date where
  year : Int
  month : Nat
  day : Nat
deriving DecidableEq

/-- Lexicographic date comparison (pandas Timestamp `<=`). -/
def dle (a b : Date) : Bool :=
  decide (a.year < b.year) ||
    (decide (a.year = b.year) &&
      (decide (a.month < b.month) ||
        (decide (a.month = b.month) && decide (a.day ≤ b.day))))

/-- Strict lexicographic date comparison (pandas Timestamp `<`). -/
def dlt (a b : Date) : Bool := dle a b && !(dle b a)

/-- Gregorian month length. -/
def daysInMonth (y : Int) (m : Nat) : Nat :=
  if m = 2 then
    if y % 4 = 0 && (y % 100 ≠ 0 || y % 400 = 0) then 29 else 28
  else if m = 4 || m = 6 || m = 9 || m = 11 then 30
  else 31

/-- `date - pd.DateOffset(months = k)`: shift the month back by `k`, clamping
the day to the length of the target month. -/
def subMonths (d : Date) (k : Nat) : Date :=
  let t : Int := d.year * 12 + (d.month : Int) - 1 - (k : Int)
  let y : Int := t.fdiv 12
  let m : Nat := (t.emod 12).toNat + 1
  ⟨y, m, min d.day (daysInMonth y m)⟩

/-- `pd.to_datetime(f'{year}-{month}-01') + pd.offsets.MonthEnd(0)`: the last
calendar day of the given month. -/
def monthEndDate (y : Int) (m : Nat) : Date := ⟨y, m, daysInMonth y m⟩

/-- `pandas.Timestamp.quarter` of a month. -/
def quarterOf (m : Nat) : Nat := (m - 1) / 3 + 1

/-- The quarter key `f"{trade_date.year}Q{trade_date.quarter}"`. -/
def qstr (d : Date) : String :=
  toString d.year ++ "Q" ++ toString (quarterOf d.month)

/-- `col.replace('\n', ' ')`. -/
def cleanCol (s : String) : String :=
  String.mk (s.toList.map (fun c => if c = '\n' then ' ' else c))

/-- The report-tag alternation `(一季|中报|三季|年报)` tried at the head of a
character suffix, returning the mapped fiscal month
(`{"一季": 3, "中报": 6, "三季": 9, "年报": 12}`). -/
def tagAt : List Char → Option Nat
  | c1 :: c2 :: _ =>
    if c1 = '一' && c2 = '季' then some 3
    else if c1 = '中' && c2 = '报' then some 6
    else if c1 = '三' && c2 = '季' then some 9
    else if c1 = '年' && c2 = '报' then some 12
    else none
  | _ => none

/-- Leftmost occurrence of a report tag in a character list (the lazy `.*?`
of the regex stops at the first tag it can reach). -/
def findTag : List Char → Option Nat
  | [] => none
  | c :: t => (tagAt (c :: t)).orElse (fun _ => findTag t)

/-- Four leading ASCII digits of a character suffix, as a year number
(`(\d{4})` at a fixed start position). -/
def year4 : List Char → Option Nat
  | a :: b :: c :: d :: _ =>
    if a.isDigit && b.isDigit && c.isDigit && d.isDigit then
      some (((a.toNat - 48) * 10 + (b.toNat - 48)) * 100 +
        ((c.toNat - 48) * 10 + (d.toNat - 48)))
    else none
  | _ => none

/-- `re.search(r'(\d{4}).*?(一季|中报|三季|年报)', s)`: leftmost start
position at which four digits are followed (lazily, at distance ≥ 0) by a
report tag; yields the year and the tag's fiscal month. -/
def searchYearTag : List Char → Option (Nat × Nat)
  | [] => none
  | c :: t =>
    match year4 (c :: t) with
    | some y =>
      match findTag ((c :: t).drop 4) with
      | some m => some (y, m)
      | none => searchYearTag t
    | none => searchYearTag t

/-- Resolve one column label to its `(year, fiscal month)` report period, the
way the loop body does on `clean_col`. -/
def resolveLabel (col : String) : Option (Nat × Nat) :=
  searchYearTag (cleanCol col).toList

/-- Lines 115–129 of `backtest_and_analyze`: the lookback window bounds
`t2 = trade_date - 6 months`, `t5 = t2 - 9 months`, and the filter keeping
the indicator columns (all columns but the first, `证券名称`) whose resolved
report period's month-end date lies in `[t5, t2]`; unresolvable labels are
dropped. -/
def windowCols (cols : List String) (tradeDate : Date) : List String :=
  let t2 := subMonths tradeDate 6
  let t5 := subMonths t2 9
  (cols.drop 1).filter (fun col =>
    match resolveLabel col with
    | some (y, m) =>
      dle t5 (monthEndDate (Int.ofNat y) m) && dle (monthEndDate (Int.ofNat y) m) t2
    | none => false)

/-! ## Factor extraction (`rolling_factor_analysis_and_ranking`)

The scikit-learn `FactorAnalysis` fits themselves are the abstracted numeric
kernel; everything the function computes *from* the fitted numbers is embedded
below: the explained-variance shares, the `searchsorted`-based factor count,
the re-fit weights, the composite scores, and the descending sort. -/

/-- `eig_vals / np.sum(eig_vals)`: each factor's explained-variance share. -/
def contribShare (eigVals : List ℚ) : List ℚ :=
  eigVals.map (fun x => x / eigVals.sum)

/-- `np.cumsum`. -/
def cumsumQ : List ℚ → List ℚ :=
  go 0
where
  go (acc : ℚ) : List ℚ → List ℚ
    | [] => []
    | x :: t => (acc + x) :: go (acc + x) t

/-- `np.searchsorted(a, v)` (side `'left'`) on a sorted array: the leftmost
index whose entry is `≥ v`, or the length when every entry is `< v`.  (The
binary search of numpy coincides with this linear characterisation on the
sorted cumulative-sum arrays it is applied to here.) -/
def searchsortedLeft (v : ℚ) : List ℚ → Nat
  | [] => 0
  | x :: t => if v ≤ x then 0 else searchsortedLeft v t + 1

/-- Line 47: `n_factors = np.searchsorted(cumsum, min_cum_var) + 1`, the
factor count used for the final re-fit. -/
def chooseNFactors (eigVals : List ℚ) (minCumVar : ℚ) : Nat :=
  searchsortedLeft minCumVar (cumsumQ (contribShare eigVals)) + 1

/-- Cumulative explained-variance share of the first `k` factors of the
initial capped fit. -/
def cumShare (eigVals : List ℚ) (k : Nat) : ℚ :=
  ((contribShare eigVals).take k).sum

/-- Line 52: `weights = eig_vals / np.sum(eig_vals)` of the re-fit model. -/
def factorWeights (eigVals : List ℚ) : List ℚ := contribShare eigVals

/-- Row-times-vector part of `np.dot(factor_scores, weights)`. -/
def dotQ (x w : List ℚ) : ℚ := (List.zipWith (fun a b => a * b) x w).sum

/-- Line 56: `total_scores = np.dot(factor_scores, weights)` — one composite
score per security (row of `factor_scores`). -/
def totalScores (factorScores : List (List ℚ)) (w : List ℚ) : List ℚ :=
  factorScores.map (fun row => dotQ row w)

/-- A row of the `ranked_stocks` frame: pandas integer index (original row
position), `证券名称`, `综合得分`. -/
abbrev ScoredRow : Type := Nat × String × ℚ

/-- Comparison on the sort key `综合得分`. -/
def rowLe (a b : ScoredRow) : Prop := a.2.2 ≤ b.2.2

instance : DecidableRel rowLe := fun a b => inferInstanceAs (Decidable (a.2.2 ≤ b.2.2))

instance : IsTotal ScoredRow rowLe := ⟨fun a b => le_total a.2.2 b.2.2⟩

instance : IsTrans ScoredRow rowLe := ⟨fun _ _ _ h1 h2 => le_trans h1 h2⟩

/-- `DataFrame.sort_values(by=..., ascending=False)` with the default sort
kind: pandas `nargsort` reverses the values, argsorts them ascending, and
reverses the resulting indexer again.  Modelling caveat: the numpy kernel
argsort is modelled here as a stable ascending insertion sort.  That is exact
for arrays within numpy's introsort insertion-sort cutoff (16 elements), but
an idealization beyond it — `kind='quicksort'` is documented as unstable, so
the program guarantees no particular tie order for larger frames.  The model
is used only for properties that are insensitive to the kernel sort's tie
behaviour (a descending sort by score, and rank order under comparison-
preserving rescalings); tie *stability* itself is deliberately not claimed of
the program from this model. -/
def pdSortDesc (l : List ScoredRow) : List ScoredRow :=
  (List.insertionSort rowLe l.reverse).reverse

/-- Lines 59–62: attach the composite scores to the `证券名称` column (rows
carry their pandas RangeIndex, i.e. their original position) and sort the
frame descending by `综合得分`. -/
def rankStocks (names : List String) (scores : List ℚ) : List ScoredRow :=
  pdSortDesc ((names.zip scores).enum.map (fun p => (p.1, p.2.1, p.2.2)))

/-! ## Quarterly rebalance simulator (`backtest_and_analyze`, lines 85–197)

The loop state is `(cash, current_portfolio, portfolio_history)`.  The model
fixes `price_ts is not None` (the claims under verification all concern the
priced execution path); the factor-analysis outcome per quarter index is the
abstract parameter `fa`. -/

/-- `INITIAL_CAPITAL = 1_000_000`. -/
def initialCapital : ℚ := 1000000

/-- `TOP_N_STOCKS = 5`. -/
def topNStocks : Nat := 5

/-- One `portfolio_history` record: `{'start_asset': …}`, with `'end_asset'`
present only after the terminal liquidation writes it. -/
structure HRecord where
  startAsset : ValF
  endAsset : Option ValF
deriving DecidableEq

/-- The mutable backtest state: `cash`, `current_portfolio` (name ↦ shares)
and `portfolio_history` (quarter key ↦ record), all insertion-ordered. -/
structure BtState where
  cash : ValF
  holdings : List (String × ValF)
  history : List (String × HRecord)
deriving DecidableEq

/-- The dated rows of `price_ts` (index already `sort_index`-ed ascending). -/
abbrev PriceSeries : Type := List (Date × Snapshot)

/-- Line 97: `price_ts.index[price_ts.index >= trade_date][0]` together with
line 98's `.loc` — the first stored row whose date is `≥ trade_date`, `none`
when the boolean selection is empty and the subscript raises `IndexError`. -/
def resolveTradeRow (pts : PriceSeries) (tradeDate : Date) :
    Option (Date × Snapshot) :=
  pts.find? (fun p => dle tradeDate p.1)

/-- Lines 106 and 188: `sum(shares * prices.get(name, 0) for name, shares in
current_portfolio.items())` — the mark-to-market value of the held shares,
with an absent name defaulting to price `0` and a NaN price or NaN share
count propagating NaN into the sum. -/
def stockValue (holdings : List (String × ValF)) (snap : Snapshot) : ValF :=
  holdings.foldl (fun acc p => addF acc (mulF p.2 (sget snap p.1 (some 0)))) (some 0)

/-- Lines 103–107: the period-start total asset value — the configured
initial capital for the first quarter (`i == 0`), otherwise the
mark-to-market value of the holdings plus cash. -/
def mtmTotal (s : BtState) (i : Nat) (snap : Snapshot) : ValF :=
  if i = 0 then some initialCapital else addF (stockValue s.holdings snap) s.cash

/-- Lines 160–169: the tradability filter on a top-N name.  The three
successive recomputations of `tradable_names` reduce to key membership, and
the final pass keeps a name iff `pd.notna(prices.get(name, np.nan))` and
`prices.get(name, 0) > 0`: the name must be a key of the snapshot with a
non-NaN, strictly positive price. -/
def tradableFilter (snap : Snapshot) (name : String) : Bool :=
  match List.lookup name snap with
  | some (some p) => decide (0 < p)
  | _ => false

/-- Lines 157–179: build the new position.  On a non-terminal quarter
(`trade_date != quarters[-1]`) with a non-empty tradable set, split cash
equally (`investment_per_stock = cash / len(tradable_names)`), buy
`investment_per_stock / price` shares of each name and deduct the allocation
from cash; otherwise leave the (already emptied) holdings and cash alone. -/
def rebalance (snap : Snapshot) (isLast : Bool) (ranked : List String)
    (cash : ValF) : ValF × List (String × ValF) :=
  if isLast then (cash, [])
  else
    let target := ranked.take topNStocks
    let tradable := target.filter (tradableFilter snap)
    if tradable.isEmpty then (cash, [])
    else
      let inv := divF cash (some (tradable.length : ℚ))
      tradable.foldl
        (fun acc name =>
          (subF acc.1 inv, dictSet acc.2 name (divF inv (sget snap name none))))
        (cash, [])

/-- One iteration of the loop `for i, trade_date in enumerate(quarters)`:
resolve the tradable date (skip the quarter on `IndexError`), mark to market
and record the start asset, reset cash and clear the holdings, compute the
lookback window (skip if empty), consume the factor-analysis outcome (skip on
failure), and rebalance. -/
def btStep (cols : List String) (pts : PriceSeries)
    (fa : Nat → Option (List String)) (quarters : List Date)
    (s : BtState) (iq : Nat × Date) : BtState :=
  match resolveTradeRow pts iq.2 with
  | none => s
  | some row =>
    if (windowCols cols iq.2).isEmpty then
      ⟨mtmTotal s iq.1 row.2, [],
        dictSet s.history (qstr iq.2) ⟨mtmTotal s iq.1 row.2, none⟩⟩
    else
      match fa iq.1 with
      | none =>
        ⟨mtmTotal s iq.1 row.2, [],
          dictSet s.history (qstr iq.2) ⟨mtmTotal s iq.1 row.2, none⟩⟩
      | some ranked =>
        ⟨(rebalance row.2 (quarters.getLast? == some iq.2) ranked
            (mtmTotal s iq.1 row.2)).1,
          (rebalance row.2 (quarters.getLast? == some iq.2) ranked
            (mtmTotal s iq.1 row.2)).2,
          dictSet s.history (qstr iq.2) ⟨mtmTotal s iq.1 row.2, none⟩⟩

/-- Lines 184–191: `final_asset_value` — cash alone when nothing is held,
otherwise cash plus the holdings valued at the last stored price row
(`iloc[-1]`; on an empty frame the `IndexError` is swallowed and the value
stays at cash). -/
def finalValue (pts : PriceSeries) (s : BtState) : ValF :=
  if s.holdings.isEmpty then s.cash
  else
    match pts.getLast? with
    | none => s.cash
    | some pr => addF s.cash (stockValue s.holdings pr.2)

/-- Lines 181–195: terminal liquidation.  When any history was recorded,
attach `final_asset_value` as `'end_asset'` of the final quarter's record —
but only if that quarter's key exists in the history. -/
def finalize (pts : PriceSeries) (quarters : List Date) (s : BtState) :
    BtState :=
  if s.history.isEmpty then s
  else
    match quarters.getLast? with
    | none => s
    | some lastQ =>
      if s.history.any (fun e => e.1 == qstr lastQ) then
        ⟨s.cash, s.holdings,
          s.history.map (fun e =>
            if e.1 == qstr lastQ then
              (e.1, ⟨e.2.startAsset, some (finalValue pts s)⟩)
            else e)⟩
      else s

/-- The initial loop state: `current_portfolio = {}`,
`cash = INITIAL_CAPITAL`, `portfolio_history = {}`. -/
def btInit : BtState := ⟨some initialCapital, [], []⟩

/-- The whole simulation: fold the quarter step over the enumerated quarter
sequence, then run the terminal liquidation. -/
def backtest (cols : List String) (pts : PriceSeries)
    (fa : Nat → Option (List String)) (quarters : List Date) : BtState :=
  finalize pts quarters (quarters.enum.foldl (btStep cols pts fa quarters) btInit)

/-! ## Performance accountant (`generate_visualizations`, lines 205–209) -/

/-- `Series.pct_change(fill_method=None)` on the recorded start-asset
sequence: `none` (NaN) for the first entry, `(x_i - x_{i-1}) / x_{i-1}` after
it. -/
def pctChange : List ℚ → List (Option ℚ)
  | [] => []
  | x :: t => none :: List.zipWith (fun prev cur => some ((cur - prev) / prev)) (x :: t) t

/-- Line 207: `(start_assets.pct_change(fill_method=None) * 100).fillna(0)` —
the derived `季度收益率(%)` column. -/
def quarterlyReturns (startAssets : List ℚ) : List ℚ :=
  ((pctChange startAssets).map (Option.map (fun x => x * 100))).map (fun o => o.getD 0)

/-! ## The intended (spec-side) mark-to-market value, for claim C1

The spec states: total asset value = cash + Σ(shares held × price), with the
price term replaced by `0` whenever the security is unpriced on the valuation
date. -/

/-- The spec's price term: the snapshot price, `0` for a security that is
absent from the snapshot, and — following the spec's words — also `0` for a
security whose stored price is missing (NaN). -/
def specPriceOr0 (snap : Snapshot) (name : String) : ℚ :=
  match List.lookup name snap with
  | some (some p) => p
  | _ => 0

/-- The spec's total asset value: `cash + Σ shares × specPriceOr0`. -/
def specMarkToMarket (cash : ℚ) (hold : List (String × ℚ)) (snap : Snapshot) : ℚ :=
  cash + (hold.map (fun p => p.2 * specPriceOr0 snap p.1)).sum

/-! ## Helper lemmas -/

theorem mem_dictSet {β : Type} {l : List (String × β)} {k : String} {v : β}
    {e : String × β} (he : e ∈ dictSet l k v) : e = (k, v) ∨ e ∈ l := by
  unfold dictSet at he
  split at he
  · rcases List.mem_map.mp he with ⟨p, hp, hpe⟩
    by_cases h : p.1 == k
    · left; rw [if_pos h] at hpe; exact hpe.symm
    · right; rw [if_neg h] at hpe; exact hpe ▸ hp
  · rcases List.mem_append.mp he with h | h
    · exact Or.inr h
    · exact Or.inl (List.mem_singleton.mp h)

theorem length_dictSet {β : Type} (l : List (String × β)) (k : String) (v : β) :
    (dictSet l k v).length ≤ l.length + 1 := by
  unfold dictSet
  split
  · simp
  · simp

/-- **C4.** A quarter whose trade date has no price-series row on or after it
is skipped entirely: the step returns the state unchanged — same cash, same
held shares, same history (no entry is created) — and the fold proceeds with
the next quarter. -/
theorem c4_unpriced_quarter_skipped (cols : List String) (pts : PriceSeries)
    (fa : Nat → Option (List String)) (quarters : List Date)
    (s : BtState) (i : Nat) (td : Date)
    (h : ∀ p ∈ pts, dle td p.1 = false) :
    btStep cols pts fa quarters s (i, td) = s := by
  have hfind : resolveTradeRow pts td = none := by
    unfold resolveTradeRow
    rw [List.find?_eq_none]
    intro p hp
    simp [h p hp]
  unfold btStep
  rw [show (i, td).2 = td from rfl, hfind]
/-- Witness for C4: concrete quarter `2021-04-01` with the only price row
dated `2021-01-01` — the step leaves the initial state untouched. -/
theorem c4_unpriced_quarter_skipped_witness :
    btStep ["证券名称"] [(⟨2021, 1, 1⟩, [("A", some 10)])] (fun _ => none)
      [⟨2021, 4, 1⟩] btInit (0, ⟨2021, 4, 1⟩) = btInit :=
  c4_unpriced_quarter_skipped ["证券名称"] [(⟨2021, 1, 1⟩, [("A", some 10)])]
    (fun _ => none) [⟨2021, 4, 1⟩] btInit 0 ⟨2021, 4, 1⟩ (by decide)

/-- **C6.** On a non-terminal quarter where the trade row resolves, the
lookback window is non-empty and the factor analysis succeeds, but no top-N
name passes the tradability filter, the rebalance leaves cash exactly at the
period-start total (the mark-to-market value recorded for the quarter) and
the held-shares mapping empty. -/
theorem c6_no_tradable_names_holds_cash (cols : List String) (pts : PriceSeries)
    (fa : Nat → Option (List String)) (quarters : List Date)
    (s : BtState) (i : Nat) (td : Date) (row : Date × Snapshot)
    (ranked : List String)
    (hrow : resolveTradeRow pts td = some row)
    (hwin : (windowCols cols td).isEmpty = false)
    (hfa : fa i = some ranked)
    (hlast : quarters.getLast? ≠ some td)
    (hempty : (ranked.take topNStocks).filter (tradableFilter row.2) = []) :
    (btStep cols pts fa quarters s (i, td)).holdings = [] ∧
    (btStep cols pts fa quarters s (i, td)).cash = mtmTotal s i row.2 := by
  unfold btStep
  rw [hrow]
  simp only [hwin, Bool.false_eq_true, if_false, hfa, rebalance,
    beq_eq_false_iff_ne.mpr hlast, Bool.false_eq_true, if_false, hempty,
    List.isEmpty_nil, if_true]
  exact ⟨trivial, trivial⟩
/-- Witness for C6: a non-terminal quarter whose only top-N name has a
non-positive price — the step ends with empty holdings and cash equal to the
period-start total. -/
theorem c6_no_tradable_names_holds_cash_witness :
    (btStep ["证券名称", "净利润\n2019年报"] [(⟨2021, 1, 1⟩, [("A", some 0)])]
        (fun _ => some ["A"]) [⟨2021, 1, 1⟩, ⟨2021, 4, 1⟩] btInit
        (0, ⟨2021, 1, 1⟩)).holdings = [] ∧
    (btStep ["证券名称", "净利润\n2019年报"] [(⟨2021, 1, 1⟩, [("A", some 0)])]
        (fun _ => some ["A"]) [⟨2021, 1, 1⟩, ⟨2021, 4, 1⟩] btInit
        (0, ⟨2021, 1, 1⟩)).cash = mtmTotal btInit 0 [("A", some 0)] :=
  c6_no_tradable_names_holds_cash ["证券名称", "净利润\n2019年报"]
    [(⟨2021, 1, 1⟩, [("A", some 0)])] (fun _ => some ["A"])
    [⟨2021, 1, 1⟩, ⟨2021, 4, 1⟩] btInit 0 ⟨2021, 1, 1⟩
    (⟨2021, 1, 1⟩, [("A", some 0)]) ["A"] (by decide) (by decide) rfl
    (by decide) (by decide)

/-- **C3.** A column is kept by the lookback-window selection for a quarter's
trade date iff it is an indicator column (not the leading `证券名称` column),
its label resolves to a `(year, report-tag)` period, and the period's
month-end date `d` satisfies `t5 ≤ d ≤ t2` with `t2 = trade_date − 6 months`
and `t5 = t2 − 9 months`, both ends inclusive; unresolvable labels never
match. -/
theorem c3_window_selection (cols : List String) (tradeDate : Date)
    (col : String) :
    col ∈ windowCols cols tradeDate ↔
      col ∈ cols.drop 1 ∧
        ∃ y m, resolveLabel col = some (y, m) ∧
          dle (subMonths (subMonths tradeDate 6) 9)
              (monthEndDate (Int.ofNat y) m) = true ∧
          dle (monthEndDate (Int.ofNat y) m) (subMonths tradeDate 6) = true := by
  unfold windowCols
  rw [List.mem_filter]
  constructor
  · rintro ⟨hmem, hpred⟩
    refine ⟨hmem, ?_⟩
    cases hres : resolveLabel col with
    | none =>
      simp only [hres] at hpred
      exact (Bool.false_ne_true hpred).elim
    | some ym =>
      obtain ⟨y, m⟩ := ym
      simp only [hres, Bool.and_eq_true] at hpred
      exact ⟨y, m, rfl, hpred.1, hpred.2⟩
  · rintro ⟨hmem, y, m, hres, h5, h2⟩
    refine ⟨hmem, ?_⟩
    simp only [hres, Bool.and_eq_true]
    exact ⟨h5, h2⟩
/-- **C1, counterexample.**  The claim says an unpriced holding contributes
exactly `0` to the computed total.  Take cash `5`, a holding of `10` shares
of `A`, and a valuation-date snapshot in which `A`'s price cell is missing
(NaN) — the situation of a suspended security, the same snapshot shape the
buy-side filter `pd.notna(...)` guards against.  In the mark-to-market of a
quarter after the first (`i = 1`), `prices_on_trade_date.get('A', 0)`
returns the NaN cell, and the computed total is NaN — not
`5 = cash + 10 * 0` as the claim requires. -/
theorem c1_unpriced_counterexample :
    mtmTotal ⟨some 5, [("A", some 10)], []⟩ 1 [("A", none)] = none ∧
    mtmTotal ⟨some 5, [("A", some 10)], []⟩ 1 [("A", none)] ≠
      some (5 + 10 * 0) := by
  constructor
  · rfl
  · decide

/-- **C1, amended.**  In the mark-to-market expression of lines 106–107 and
the terminal-liquidation expression of line 188 (both are
`cash + Σ shares × prices.get(name, 0)` over the held shares), a held
security *absent from the snapshot's keys* contributes exactly `0`; provided
no held security has a present-but-NaN price cell, the computed total equals
the spec's `cash + Σ(shares × price, 0 if unpriced)`.  (When some held name
has a NaN cell the total is NaN — see the counterexample.) -/
theorem c1_absent_contributes_zero (cash : ℚ) (hold : List (String × ℚ))
    (snap : Snapshot)
    (h : ∀ p ∈ hold, List.lookup p.1 snap ≠ some none) :
    addF (stockValue (hold.map (fun p => (p.1, some p.2))) snap) (some cash) =
      some (specMarkToMarket cash hold snap) := by
  have key : ∀ (l : List (String × ℚ)) (a : ℚ),
      (∀ p ∈ l, List.lookup p.1 snap ≠ some none) →
      (l.map (fun p => (p.1, some p.2))).foldl
          (fun acc p => addF acc (mulF p.2 (sget snap p.1 (some 0)))) (some a) =
        some (a + (l.map (fun p => p.2 * specPriceOr0 snap p.1)).sum) := by
    intro l
    induction l with
    | nil => intro a _; simp
    | cons p t ih =>
      intro a hl
      have hp := hl p (List.mem_cons_self p t)
      have ht : ∀ q ∈ t, List.lookup q.1 snap ≠ some none :=
        fun q hq => hl q (List.mem_cons_of_mem p hq)
      simp only [List.map_cons, List.foldl_cons, List.sum_cons]
      cases hlk : List.lookup p.1 snap with
      | none =>
        rw [show sget snap p.1 (some 0) = some 0 from by simp [sget, hlk]]
        rw [show specPriceOr0 snap p.1 = 0 from by simp [specPriceOr0, hlk]]
        rw [show mulF (some p.2) (some 0) = some (p.2 * 0) from rfl]
        rw [show addF (some a) (some (p.2 * 0)) = some (a + p.2 * 0) from rfl]
        rw [ih (a + p.2 * 0) ht]
        rw [add_assoc]
      | some v =>
        cases v with
        | none => exact absurd hlk hp
        | some q =>
          rw [show sget snap p.1 (some 0) = some q from by simp [sget, hlk]]
          rw [show specPriceOr0 snap p.1 = q from by simp [specPriceOr0, hlk]]
          rw [show mulF (some p.2) (some q) = some (p.2 * q) from rfl]
          rw [show addF (some a) (some (p.2 * q)) = some (a + p.2 * q) from rfl]
          rw [ih (a + p.2 * q) ht]
          rw [add_assoc]
  unfold stockValue specMarkToMarket
  rw [key hold 0 h]
  rw [show addF (some (0 + (hold.map (fun p => p.2 * specPriceOr0 snap p.1)).sum)) (some cash)
      = some (0 + (hold.map (fun p => p.2 * specPriceOr0 snap p.1)).sum + cash) from rfl]
  rw [zero_add, add_comm]
/-- Witness for C1-amended: a holding absent from the snapshot — the total is
`5 + 10 * 0 = 5`. -/
theorem c1_absent_contributes_zero_witness :
    addF (stockValue ([(("A" : String), (10 : ℚ))].map (fun p => (p.1, some p.2)))
        [("B", some 7)]) (some 5) =
      some (specMarkToMarket 5 [("A", 10)] [("B", some 7)]) :=
  c1_absent_contributes_zero 5 [("A", 10)] [("B", some 7)] (by decide)

theorem btStep_history_cases (cols : List String) (pts : PriceSeries)
    (fa : Nat → Option (List String)) (quarters : List Date)
    (s : BtState) (iq : Nat × Date) :
    (btStep cols pts fa quarters s iq).history = s.history ∨
    ∃ row : Date × Snapshot, (btStep cols pts fa quarters s iq).history =
      dictSet s.history (qstr iq.2) ⟨mtmTotal s iq.1 row.2, none⟩ := by
  cases hr : resolveTradeRow pts iq.2 with
  | none =>
    left
    unfold btStep
    simp only [hr]
  | some row =>
    right
    refine ⟨row, ?_⟩
    unfold btStep
    simp only [hr]
    by_cases hw : (windowCols cols iq.2).isEmpty
    · rw [if_pos hw]
    · rw [if_neg hw]
      cases hfa : fa iq.1 with
      | none => rfl
      | some ranked => rfl

theorem btStep_history_end_none (cols : List String) (pts : PriceSeries)
    (fa : Nat → Option (List String)) (quarters : List Date)
    (s : BtState) (iq : Nat × Date)
    (hs : ∀ e ∈ s.history, e.2.endAsset = none) :
    ∀ e ∈ (btStep cols pts fa quarters s iq).history, e.2.endAsset = none := by
  intro e he
  rcases btStep_history_cases cols pts fa quarters s iq with h | ⟨row, h⟩
  · exact hs e (h ▸ he)
  · rw [h] at he
    rcases mem_dictSet he with h2 | h2
    · rw [h2]
    · exact hs e h2

theorem foldl_history_end_none (cols : List String) (pts : PriceSeries)
    (fa : Nat → Option (List String)) (quarters : List Date)
    (l : List (Nat × Date)) (s : BtState)
    (hs : ∀ e ∈ s.history, e.2.endAsset = none) :
    ∀ e ∈ (l.foldl (btStep cols pts fa quarters) s).history,
      e.2.endAsset = none := by
  induction l generalizing s with
  | nil => exact hs
  | cons iq t ih =>
    rw [List.foldl_cons]
    exact ih (btStep cols pts fa quarters s iq)
      (btStep_history_end_none cols pts fa quarters s iq hs)

/-- **C9.** If no history entry carries the last quarter's key (the last
quarter was skipped), then no entry of the final history carries an
`end_asset` at all: the terminal liquidation value is attached only when the
final quarter's key exists in the history. -/
theorem c9_no_terminal_value_when_last_skipped (cols : List String)
    (pts : PriceSeries) (fa : Nat → Option (List String))
    (quarters : List Date) (lq : Date)
    (hlq : quarters.getLast? = some lq)
    (hmiss : ∀ e ∈ (backtest cols pts fa quarters).history, e.1 ≠ qstr lq) :
    ∀ e ∈ (backtest cols pts fa quarters).history, e.2.endAsset = none := by
  have hloop := foldl_history_end_none cols pts fa quarters quarters.enum
    btInit (by intro e he; simp [btInit] at he)
  intro e he
  unfold backtest finalize at he hmiss
  simp only [hlq] at he hmiss
  by_cases hemp :
      (quarters.enum.foldl (btStep cols pts fa quarters) btInit).history.isEmpty
  · rw [if_pos hemp] at he
    exact hloop e he
  · rw [if_neg hemp] at he hmiss
    by_cases hany : (quarters.enum.foldl (btStep cols pts fa quarters)
        btInit).history.any (fun p => p.1 == qstr lq)
    · exfalso
      rcases List.any_eq_true.mp hany with ⟨p, hp, hpk⟩
      have hkey : p.1 = qstr lq := by simpa using hpk
      rw [if_pos hany] at hmiss
      refine hmiss (p.1, ⟨p.2.startAsset,
        some (finalValue pts
          (quarters.enum.foldl (btStep cols pts fa quarters) btInit))⟩) ?_ hkey
      apply List.mem_map.mpr
      refine ⟨p, hp, ?_⟩
      rw [if_pos hpk]
    · rw [if_neg hany] at he
      exact hloop e he
/-- Witness for C9: a two-quarter run whose second (last) quarter has no
price row on or after its trade date — the single recorded entry (2021Q1)
carries no end-of-period value. -/
theorem c9_no_terminal_value_when_last_skipped_witness :
    ((backtest ["证券名称", "净利润\n2019年报"]
        [(⟨2021, 1, 1⟩, [("A", some 10)])] (fun _ => some ["A"])
        [⟨2021, 1, 1⟩, ⟨2021, 4, 1⟩]).history.headD
      ("", ⟨none, some none⟩)).2.endAsset = none :=
  c9_no_terminal_value_when_last_skipped ["证券名称", "净利润\n2019年报"]
    [(⟨2021, 1, 1⟩, [("A", some 10)])] (fun _ => some ["A"])
    [⟨2021, 1, 1⟩, ⟨2021, 4, 1⟩] ⟨2021, 4, 1⟩ (by decide) (by decide)
    ((backtest ["证券名称", "净利润\n2019年报"]
        [(⟨2021, 1, 1⟩, [("A", some 10)])] (fun _ => some ["A"])
        [⟨2021, 1, 1⟩, ⟨2021, 4, 1⟩]).history.headD
      ("", ⟨none, some none⟩)) (by decide)

/-- The C10 invariant: the held-shares mapping never exceeds `TOP_N_STOCKS`
entries, and every held entry's share count is an allocation `inv / price`
for a price that is stored (non-NaN) and strictly positive in some snapshot
of the price series. -/
def HoldingsInv (pts : PriceSeries) (s : BtState) : Prop :=
  s.holdings.length ≤ topNStocks ∧
    ∀ p ∈ s.holdings, ∃ d snap q inv, (d, snap) ∈ pts ∧
      List.lookup p.1 snap = some (some q) ∧ 0 < q ∧ p.2 = divF inv (some q)

theorem buyFold_length (snap : Snapshot) (inv : ValF) :
    ∀ (tr : List String) (c0 : ValF) (p0 : List (String × ValF)),
      ((tr.foldl (fun acc name =>
          (subF acc.1 inv, dictSet acc.2 name (divF inv (sget snap name none))))
          (c0, p0)).2).length ≤ p0.length + tr.length := by
  intro tr
  induction tr with
  | nil => intro c0 p0; simp
  | cons n t ih =>
    intro c0 p0
    rw [List.foldl_cons]
    calc ((t.foldl (fun acc name =>
            (subF acc.1 inv, dictSet acc.2 name (divF inv (sget snap name none))))
            (subF c0 inv, dictSet p0 n (divF inv (sget snap n none)))).2).length
        ≤ (dictSet p0 n (divF inv (sget snap n none))).length + t.length :=
          ih (subF c0 inv) (dictSet p0 n (divF inv (sget snap n none)))
      _ ≤ (p0.length + 1) + t.length := by
          exact Nat.add_le_add_right (length_dictSet p0 n _) t.length
      _ = p0.length + (n :: t).length := by rw [List.length_cons]; omega

theorem buyFold_mem (snap : Snapshot) (inv : ValF) :
    ∀ (tr : List String), (∀ n ∈ tr, tradableFilter snap n = true) →
    ∀ (c0 : ValF) (p0 : List (String × ValF)),
      (∀ p ∈ p0, ∃ q inv2, List.lookup p.1 snap = some (some q) ∧ 0 < q ∧
        p.2 = divF inv2 (some q)) →
      ∀ p ∈ (tr.foldl (fun acc name =>
          (subF acc.1 inv, dictSet acc.2 name (divF inv (sget snap name none))))
          (c0, p0)).2,
        ∃ q inv2, List.lookup p.1 snap = some (some q) ∧ 0 < q ∧
          p.2 = divF inv2 (some q) := by
  intro tr
  induction tr with
  | nil => intro _ c0 p0 hp0 p hp; exact hp0 p hp
  | cons n t ih =>
    intro htr c0 p0 hp0 p hp
    rw [List.foldl_cons] at hp
    refine ih (fun x hx => htr x (List.mem_cons_of_mem n hx)) (subF c0 inv)
      (dictSet p0 n (divF inv (sget snap n none))) ?_ p hp
    intro e he
    rcases mem_dictSet he with h | h
    · have hf := htr n (List.mem_cons_self n t)
      unfold tradableFilter at hf
      cases hlk : List.lookup n snap with
      | none => rw [hlk] at hf; exact absurd hf (by simp)
      | some v =>
        cases v with
        | none => rw [hlk] at hf; exact absurd hf (by simp)
        | some q =>
          rw [hlk] at hf
          refine ⟨q, inv, ?_, ?_, ?_⟩
          · rw [h]; exact hlk
          · exact of_decide_eq_true hf
          · rw [h]
            simp [sget, hlk]
    · exact hp0 e h
theorem rebalance_inv (snap : Snapshot) (isLast : Bool) (ranked : List String)
    (cash : ValF) :
    (rebalance snap isLast ranked cash).2.length ≤ topNStocks ∧
    ∀ p ∈ (rebalance snap isLast ranked cash).2, ∃ q inv2,
      List.lookup p.1 snap = some (some q) ∧ 0 < q ∧ p.2 = divF inv2 (some q) := by
  unfold rebalance
  cases isLast with
  | true =>
    rw [if_pos rfl]
    exact ⟨by simp [topNStocks], by intro p hp; simp at hp⟩
  | false =>
    rw [if_neg (by simp)]
    by_cases ht : ((ranked.take topNStocks).filter (tradableFilter snap)).isEmpty
    · rw [if_pos ht]
      exact ⟨by simp [topNStocks], by intro p hp; simp at hp⟩
    · rw [if_neg ht]
      constructor
      · calc (((ranked.take topNStocks).filter (tradableFilter snap)).foldl
              (fun acc name => (subF acc.1 (divF cash (some (((ranked.take topNStocks).filter (tradableFilter snap)).length : ℚ))),
                dictSet acc.2 name (divF (divF cash (some (((ranked.take topNStocks).filter (tradableFilter snap)).length : ℚ))) (sget snap name none))))
              (cash, [])).2.length
            ≤ ([] : List (String × ValF)).length +
                ((ranked.take topNStocks).filter (tradableFilter snap)).length :=
              buyFold_length snap _ _ cash []
          _ ≤ (ranked.take topNStocks).length := by
              simp only [List.length_nil, Nat.zero_add]
              exact List.length_filter_le _ _
          _ ≤ topNStocks := List.length_take_le topNStocks ranked
      · intro p hp
        exact buyFold_mem snap _ _
          (fun n hn => List.of_mem_filter hn) cash [] (by intro e he; simp at he)
          p hp

theorem finalize_holdings (pts : PriceSeries) (quarters : List Date)
    (s : BtState) : (finalize pts quarters s).holdings = s.holdings := by
  unfold finalize
  split
  · rfl
  · split
    · rfl
    · split
      · rfl
      · rfl

theorem btStep_holdings_cases (cols : List String) (pts : PriceSeries)
    (fa : Nat → Option (List String)) (quarters : List Date)
    (s : BtState) (iq : Nat × Date) :
    (btStep cols pts fa quarters s iq).holdings = s.holdings ∨
    (btStep cols pts fa quarters s iq).holdings = [] ∨
    ∃ (row : Date × Snapshot) (ranked : List String),
      resolveTradeRow pts iq.2 = some row ∧
      (btStep cols pts fa quarters s iq).holdings =
        (rebalance row.2 (quarters.getLast? == some iq.2) ranked
          (mtmTotal s iq.1 row.2)).2 := by
  cases hr : resolveTradeRow pts iq.2 with
  | none =>
    left
    unfold btStep
    simp only [hr]
  | some row =>
    unfold btStep
    simp only [hr]
    by_cases hw : (windowCols cols iq.2).isEmpty
    · right; left; rw [if_pos hw]
    · cases hfa : fa iq.1 with
      | none =>
        right; left
        rw [if_neg hw]
      | some ranked =>
        right; right
        refine ⟨row, ranked, rfl, ?_⟩
        rw [if_neg hw]

theorem btStep_inv (cols : List String) (pts : PriceSeries)
    (fa : Nat → Option (List String)) (quarters : List Date)
    (s : BtState) (iq : Nat × Date) (hs : HoldingsInv pts s) :
    HoldingsInv pts (btStep cols pts fa quarters s iq) := by
  rcases btStep_holdings_cases cols pts fa quarters s iq with
    h | h | ⟨row, ranked, hr, h⟩
  · exact ⟨h ▸ hs.1, h ▸ hs.2⟩
  · constructor
    · rw [h]; simp [topNStocks]
    · intro p hp; rw [h] at hp; simp at hp
  · have hrow : row ∈ pts := List.mem_of_find?_eq_some hr
    have rb := rebalance_inv row.2 (quarters.getLast? == some iq.2) ranked
      (mtmTotal s iq.1 row.2)
    constructor
    · rw [h]; exact rb.1
    · intro p hp
      rw [h] at hp
      rcases rb.2 p hp with ⟨q, inv2, hlk, hq, hpe⟩
      exact ⟨row.1, row.2, q, inv2, by simpa using hrow, hlk, hq, hpe⟩

theorem foldl_inv (cols : List String) (pts : PriceSeries)
    (fa : Nat → Option (List String)) (quarters : List Date) :
    ∀ (l : List (Nat × Date)) (s : BtState), HoldingsInv pts s →
      HoldingsInv pts (l.foldl (btStep cols pts fa quarters) s) := by
  intro l
  induction l with
  | nil => intro s hs; exact hs
  | cons iq t ih =>
    intro s hs
    rw [List.foldl_cons]
    exact ih (btStep cols pts fa quarters s iq)
      (btStep_inv cols pts fa quarters s iq hs)

/-- **C10.** At every point of a backtest — after any number of processed
quarters, and in the final state — the held-shares mapping has at most
`TOP_N_STOCKS` entries, and every recorded share count is an allocation
divided by a price that is present in a snapshot of the price series with a
non-NaN, strictly positive value: a security absent from the priced-date
snapshot or with a non-positive price never receives an allocation. -/
theorem c10_holdings_bounded_and_priced (cols : List String)
    (pts : PriceSeries) (fa : Nat → Option (List String))
    (quarters : List Date) (n : Nat) :
    HoldingsInv pts
      ((quarters.enum.take n).foldl (btStep cols pts fa quarters) btInit) ∧
    HoldingsInv pts (backtest cols pts fa quarters) := by
  have hinit : HoldingsInv pts btInit := by
    constructor
    · simp [btInit, topNStocks]
    · intro p hp; simp [btInit] at hp
  constructor
  · exact foldl_inv cols pts fa quarters (quarters.enum.take n) btInit hinit
  · have hfull := foldl_inv cols pts fa quarters quarters.enum btInit hinit
    unfold backtest
    unfold HoldingsInv
    rw [finalize_holdings]
    exact hfull
theorem headD_mem_of_ne_nil {α : Type} {l : List α} (d : α) (h : l ≠ []) :
    l.headD d ∈ l := by
  cases l with
  | nil => exact absurd rfl h
  | cons a t => exact List.mem_cons_self a t

/-- A concrete one-quarter run used to exhibit the C10 invariant: one
security `A` priced `10`, one processed quarter. -/
def c10wState : BtState :=
  (([⟨2021, 1, 1⟩, ⟨2021, 4, 1⟩] : List Date).enum.take 1).foldl
    (btStep ["证券名称", "净利润\n2019年报"]
      [(⟨2021, 1, 1⟩, [("A", some 10)])] (fun _ => some ["A"])
      [⟨2021, 1, 1⟩, ⟨2021, 4, 1⟩]) btInit

/-- Witness for C10: after the first quarter of the concrete run the holdings
hold a single entry (security `A`, bought at the stored positive price `10`)
— within the top-N bound, with the share count an allocation at that
price. -/
theorem c10_holdings_bounded_and_priced_witness :
    c10wState.holdings.length ≤ topNStocks ∧
    ∃ d snap q inv,
      (d, snap) ∈ [((⟨2021, 1, 1⟩ : Date), [("A", some (10 : ℚ))])] ∧
      List.lookup (c10wState.holdings.headD ("", none)).1 snap = some (some q) ∧
      0 < q ∧
      (c10wState.holdings.headD ("", none)).2 = divF inv (some q) :=
  ⟨(c10_holdings_bounded_and_priced ["证券名称", "净利润\n2019年报"]
      [(⟨2021, 1, 1⟩, [("A", some 10)])] (fun _ => some ["A"])
      [⟨2021, 1, 1⟩, ⟨2021, 4, 1⟩] 1).1.1,
    (c10_holdings_bounded_and_priced ["证券名称", "净利润\n2019年报"]
      [(⟨2021, 1, 1⟩, [("A", some 10)])] (fun _ => some ["A"])
      [⟨2021, 1, 1⟩, ⟨2021, 4, 1⟩] 1).1.2 (c10wState.holdings.headD ("", none))
      (headD_mem_of_ne_nil ("", none) (by decide))⟩

/-! ## Claim C2: minimality of the selected factor count -/

theorem searchsortedLeft_le_length (v : ℚ) :
    ∀ l : List ℚ, searchsortedLeft v l ≤ l.length := by
  intro l
  induction l with
  | nil => simp [searchsortedLeft]
  | cons x t ih =>
    unfold searchsortedLeft
    by_cases h : v ≤ x
    · rw [if_pos h]; simp
    · rw [if_neg h]
      simpa using Nat.succ_le_succ ih

theorem searchsortedLeft_spec_at (v : ℚ) :
    ∀ l : List ℚ, searchsortedLeft v l < l.length →
      v ≤ l.getD (searchsortedLeft v l) 0 := by
  intro l
  induction l with
  | nil => intro h; simp [searchsortedLeft] at h
  | cons x t ih =>
    intro h
    by_cases hx : v ≤ x
    · simp only [searchsortedLeft, if_pos hx, List.getD_cons_zero]
      exact hx
    · simp only [searchsortedLeft, if_neg hx, List.getD_cons_succ]
      simp only [searchsortedLeft, if_neg hx, List.length_cons,
        Nat.add_lt_add_iff_right] at h
      exact ih h

theorem searchsortedLeft_spec_before (v : ℚ) :
    ∀ (l : List ℚ) (j : Nat), j < searchsortedLeft v l →
      ¬ v ≤ l.getD j 0 := by
  intro l
  induction l with
  | nil => intro j hj; simp [searchsortedLeft] at hj
  | cons x t ih =>
    intro j hj
    by_cases hx : v ≤ x
    · simp [searchsortedLeft, if_pos hx] at hj
    · simp only [searchsortedLeft, if_neg hx] at hj
      cases j with
      | zero => simpa using hx
      | succ j2 =>
        simp only [List.getD_cons_succ]
        exact ih j2 (by omega)

theorem cumsumQ_go_length (acc : ℚ) :
    ∀ l : List ℚ, (cumsumQ.go acc l).length = l.length := by
  intro l
  induction l generalizing acc with
  | nil => rfl
  | cons x t ih => simp [cumsumQ.go, ih]

theorem cumsumQ_go_getD :
    ∀ (l : List ℚ) (acc : ℚ) (j : Nat), j < l.length →
      (cumsumQ.go acc l).getD j 0 = acc + (l.take (j + 1)).sum := by
  intro l
  induction l with
  | nil => intro acc j hj; simp at hj
  | cons x t ih =>
    intro acc j hj
    cases j with
    | zero => simp [cumsumQ.go]
    | succ j2 =>
      simp only [cumsumQ.go, List.getD_cons_succ, List.take_succ_cons,
        List.sum_cons]
      rw [ih (acc + x) j2 (by simpa using hj)]
      ring

theorem cumsumQ_getD (l : List ℚ) (j : Nat) (hj : j < l.length) :
    (cumsumQ l).getD j 0 = (l.take (j + 1)).sum := by
  unfold cumsumQ
  rw [cumsumQ_go_getD l 0 j hj, zero_add]

theorem cumsumQ_length (l : List ℚ) : (cumsumQ l).length = l.length :=
  cumsumQ_go_length 0 l

theorem sum_map_div_aux (T : ℚ) :
    ∀ l : List ℚ, (l.map (fun x => x / T)).sum = l.sum / T := by
  intro l
  induction l with
  | nil => simp
  | cons x t ih => simp [ih, add_div]

theorem contribShare_sum (eigVals : List ℚ) (h : eigVals.sum ≠ 0) :
    (contribShare eigVals).sum = 1 := by
  unfold contribShare
  rw [sum_map_div_aux eigVals.sum eigVals]
  exact div_self h

/-- **C2.** For every factor-extraction input on which the pipeline succeeds
(non-degenerate explained variances: entrywise non-negative, positive total,
threshold at most the full share `1`), the factor count chosen at line 47 is
the minimal count `k ≥ 1` whose cumulative explained-variance share (from
the initial capped fit) reaches the threshold: the share at `k` is `≥` the
threshold, the share at `k − 1` is `<` the threshold whenever `k > 1`, and
every count `j ≥ 1` reaching the threshold satisfies `k ≤ j`. -/
theorem c2_minimal_factor_count (eigVals : List ℚ) (v : ℚ)
    (_hpos : ∀ x ∈ eigVals, 0 ≤ x) (hsum : 0 < eigVals.sum) (hv : v ≤ 1) :
    1 ≤ chooseNFactors eigVals v ∧
    chooseNFactors eigVals v ≤ eigVals.length ∧
    v ≤ cumShare eigVals (chooseNFactors eigVals v) ∧
    (1 < chooseNFactors eigVals v →
      cumShare eigVals (chooseNFactors eigVals v - 1) < v) ∧
    (∀ j, 1 ≤ j → v ≤ cumShare eigVals j → chooseNFactors eigVals v ≤ j) := by
  have hne : eigVals ≠ [] := by
    intro he
    rw [he] at hsum
    simp at hsum
  have hlenS : (contribShare eigVals).length = eigVals.length := by
    unfold contribShare; simp
  have hlenc : (cumsumQ (contribShare eigVals)).length = eigVals.length := by
    rw [cumsumQ_length, hlenS]
  have hlpos : 0 < eigVals.length := List.length_pos.mpr hne
  have htake : (contribShare eigVals).take eigVals.length = contribShare eigVals := by
    apply List.take_of_length_le
    rw [hlenS]
  have hfull : (cumsumQ (contribShare eigVals)).getD (eigVals.length - 1) 0 = 1 := by
    rw [cumsumQ_getD _ _ (by rw [hlenS]; omega)]
    rw [show eigVals.length - 1 + 1 = eigVals.length from by omega]
    rw [htake]
    exact contribShare_sum eigVals (ne_of_gt hsum)
  have hssl : searchsortedLeft v (cumsumQ (contribShare eigVals)) < eigVals.length := by
    by_contra hge
    push_neg at hge
    have := searchsortedLeft_spec_before v (cumsumQ (contribShare eigVals))
      (eigVals.length - 1) (by omega)
    rw [hfull] at this
    exact this hv
  refine ⟨by unfold chooseNFactors; omega, by unfold chooseNFactors; omega, ?_, ?_, ?_⟩
  · unfold chooseNFactors cumShare
    have := searchsortedLeft_spec_at v (cumsumQ (contribShare eigVals))
      (by rw [hlenc]; exact hssl)
    rwa [cumsumQ_getD _ _ (by rw [hlenS]; exact hssl)] at this
  · intro hk
    unfold chooseNFactors at hk ⊢
    unfold cumShare
    have hb := searchsortedLeft_spec_before v (cumsumQ (contribShare eigVals))
      (searchsortedLeft v (cumsumQ (contribShare eigVals)) - 1) (by omega)
    rw [cumsumQ_getD _ _ (by rw [hlenS]; omega)] at hb
    rw [show searchsortedLeft v (cumsumQ (contribShare eigVals)) - 1 + 1 =
        searchsortedLeft v (cumsumQ (contribShare eigVals)) from by omega] at hb
    rw [show searchsortedLeft v (cumsumQ (contribShare eigVals)) + 1 - 1 =
        searchsortedLeft v (cumsumQ (contribShare eigVals)) from by omega]
    exact lt_of_not_le hb
  · intro j hj1 hjv
    unfold chooseNFactors
    by_contra hlt
    push_neg at hlt
    have hb := searchsortedLeft_spec_before v (cumsumQ (contribShare eigVals))
      (j - 1) (by omega)
    rw [cumsumQ_getD _ _ (by rw [hlenS]; omega)] at hb
    rw [show j - 1 + 1 = j from by omega] at hb
    exact hb hjv
/-- Witness for C2: explained variances `[3, 1]`, threshold `3/4` — one
factor is chosen and its share `3/4` already reaches the threshold. -/
theorem c2_minimal_factor_count_witness :
    1 ≤ chooseNFactors [(3 : ℚ), 1] (3 / 4) ∧
    (3 : ℚ) / 4 ≤ cumShare [(3 : ℚ), 1] (chooseNFactors [(3 : ℚ), 1] (3 / 4)) :=
  ⟨(c2_minimal_factor_count [3, 1] (3 / 4) (by decide)
      (by norm_num [List.sum_cons]) (by norm_num)).1,
    (c2_minimal_factor_count [3, 1] (3 / 4) (by decide)
      (by norm_num [List.sum_cons]) (by norm_num)).2.2.1⟩

/-! ## Claim C5: order of the ranked list

The spec requires line 61's sort to be stable ("ties broken by original row
order").  The source sorts with pandas' default `kind='quicksort'` (numpy
introsort), which numpy and pandas document as *not* stable: beyond the
16-element insertion-sort cutoff its partition step swaps equal-keyed entries
from opposite ends of the array, so tied rows can emerge out of their
original order.  The stable tie order the spec asserts is therefore not a
guarantee of the program — a code bug against the spec (the fix is
`kind='stable'`).  What every comparison sort does guarantee, and what is
proved below, is the descending order of the output; the second conjunct
records that descending order alone does not determine the order of tied
rows, which is why the unstable kind loses the spec's property. -/

/-- **C5 (code bug).** What the program does guarantee at line 61: the ranked
list is ordered descending by composite score — under any kernel argsort,
stable or not.  And descending order does not pin down tie order: the two
distinct interleavings of two equal-scored rows are both sorted descending,
so a sort kind that is merely correct (numpy's unstable introsort) is free to
emit either, violating the claimed "original input row order" for ties. -/
theorem c5_descending_guaranteed_stability_not :
    (∀ (names : List String) (scores : List ℚ),
      List.Sorted (fun a b : ScoredRow => b.2.2 ≤ a.2.2)
        (rankStocks names scores)) ∧
    (List.Sorted (fun a b : ScoredRow => b.2.2 ≤ a.2.2)
        [((0 : Nat), "A", (1 : ℚ)), (1, "B", 1)] ∧
      List.Sorted (fun a b : ScoredRow => b.2.2 ≤ a.2.2)
        [((1 : Nat), "B", (1 : ℚ)), (0, "A", 1)] ∧
      ([((0 : Nat), "A", (1 : ℚ)), (1, "B", 1)] : List ScoredRow) ≠
        [((1 : Nat), "B", (1 : ℚ)), (0, "A", 1)]) := by
  constructor
  · intro names scores
    unfold rankStocks pdSortDesc
    have hs := List.sorted_insertionSort rowLe
      ((names.zip scores).enum.map (fun p => (p.1, p.2.1, p.2.2))).reverse
    have hs2 : List.Pairwise (fun a b : ScoredRow => a.2.2 ≤ b.2.2)
        (List.insertionSort rowLe
          ((names.zip scores).enum.map (fun p => (p.1, p.2.1, p.2.2))).reverse) :=
      hs
    exact List.pairwise_reverse.mpr hs2
  · refine ⟨?_, ?_, ?_⟩
    · exact List.pairwise_pair.mpr le_rfl
    · exact List.pairwise_pair.mpr le_rfl
    · decide

/-! ## Claim C7: weight normalization and scale-invariance of the ranking -/

theorem dotQ_map_mul (c : ℚ) :
    ∀ x w : List ℚ, dotQ x (w.map (fun b => c * b)) = c * dotQ x w := by
  intro x
  induction x with
  | nil => intro w; simp [dotQ]
  | cons a t ih =>
    intro w
    cases w with
    | nil => simp [dotQ]
    | cons b tw =>
      simp only [dotQ, List.map_cons, List.zipWith_cons_cons, List.sum_cons] at ih ⊢
      rw [ih tw]
      ring

theorem totalScores_map_mul (c : ℚ) (factorScores : List (List ℚ)) (w : List ℚ) :
    totalScores factorScores (w.map (fun b => c * b)) =
      (totalScores factorScores w).map (fun s => c * s) := by
  unfold totalScores
  rw [List.map_map]
  apply List.map_congr_left
  intro row _
  exact dotQ_map_mul c row w

theorem orderedInsert_map_scale (c : ℚ) (hc : 0 < c) (a : ScoredRow) :
    ∀ l : List ScoredRow,
      List.orderedInsert rowLe (a.1, a.2.1, c * a.2.2)
          (l.map (fun r => (r.1, r.2.1, c * r.2.2))) =
        (List.orderedInsert rowLe a l).map (fun r => (r.1, r.2.1, c * r.2.2)) := by
  intro l
  induction l with
  | nil => simp [List.orderedInsert]
  | cons x t ih =>
    simp only [List.map_cons, List.orderedInsert]
    by_cases h : rowLe a x
    · rw [if_pos (show rowLe (a.1, a.2.1, c * a.2.2) (x.1, x.2.1, c * x.2.2) from
          (mul_le_mul_left hc).mpr h), if_pos h]
      simp
    · rw [if_neg (show ¬rowLe (a.1, a.2.1, c * a.2.2) (x.1, x.2.1, c * x.2.2) from
          fun hcon => h ((mul_le_mul_left hc).mp hcon)), if_neg h]
      rw [List.map_cons, ih]

theorem insertionSort_map_scale (c : ℚ) (hc : 0 < c) :
    ∀ l : List ScoredRow,
      List.insertionSort rowLe (l.map (fun r => (r.1, r.2.1, c * r.2.2))) =
        (List.insertionSort rowLe l).map (fun r => (r.1, r.2.1, c * r.2.2)) := by
  intro l
  induction l with
  | nil => rfl
  | cons x t ih =>
    simp only [List.map_cons, List.insertionSort]
    rw [ih]
    exact orderedInsert_map_scale c hc x (List.insertionSort rowLe t)

theorem pdSortDesc_map_scale (c : ℚ) (hc : 0 < c) (l : List ScoredRow) :
    pdSortDesc (l.map (fun r => (r.1, r.2.1, c * r.2.2))) =
      (pdSortDesc l).map (fun r => (r.1, r.2.1, c * r.2.2)) := by
  unfold pdSortDesc
  rw [← List.map_reverse, insertionSort_map_scale c hc, List.map_reverse]
theorem mkRows_map_mul (c : ℚ) (names : List String) (scores : List ℚ) :
    (names.zip (scores.map (fun s => c * s))).enum.map
        (fun p => (p.1, p.2.1, p.2.2)) =
      ((names.zip scores).enum.map (fun p => (p.1, p.2.1, p.2.2))).map
        (fun r => (r.1, r.2.1, c * r.2.2)) := by
  rw [List.zip_map_right, List.enum_map, List.map_map, List.map_map]
  apply List.map_congr_left
  intro p _
  rfl

/-- **C7.** For every successful extraction (positive total explained
variance), the per-factor weights sum to `1`, and rescaling the whole weight
vector by any `c > 0` leaves the ranked order of security names unchanged. -/
theorem c7_weights_normalized_and_scale_invariant (eigVals : List ℚ)
    (names : List String) (factorScores : List (List ℚ)) (c : ℚ)
    (hsum : 0 < eigVals.sum) (hc : 0 < c) :
    (factorWeights eigVals).sum = 1 ∧
    (rankStocks names (totalScores factorScores
        ((factorWeights eigVals).map (fun w => c * w)))).map (fun r => r.2.1) =
      (rankStocks names (totalScores factorScores (factorWeights eigVals))).map
        (fun r => r.2.1) := by
  constructor
  · exact contribShare_sum eigVals (ne_of_gt hsum)
  · unfold rankStocks
    rw [totalScores_map_mul, mkRows_map_mul, pdSortDesc_map_scale c hc,
      List.map_map]
    apply List.map_congr_left
    intro r _
    rfl

/-- Witness for C7: weights from variances `[3, 1]` sum to `1`, and doubling
them leaves the two-security ranking order unchanged. -/
theorem c7_weights_normalized_and_scale_invariant_witness :
    (factorWeights [(3 : ℚ), 1]).sum = 1 ∧
    (rankStocks ["A", "B"] (totalScores [[1, 0], [0, 1]]
        ((factorWeights [(3 : ℚ), 1]).map (fun w => 2 * w)))).map
        (fun r => r.2.1) =
      (rankStocks ["A", "B"] (totalScores [[1, 0], [0, 1]]
        (factorWeights [(3 : ℚ), 1]))).map (fun r => r.2.1) :=
  c7_weights_normalized_and_scale_invariant [3, 1] ["A", "B"] [[1, 0], [0, 1]]
    2 (by norm_num [List.sum_cons]) (by norm_num)

/-! ## Claim C8: derived period returns -/

theorem length_pctChange (l : List ℚ) : (pctChange l).length = l.length := by
  cases l with
  | nil => rfl
  | cons x t => simp [pctChange]

theorem length_quarterlyReturns (l : List ℚ) :
    (quarterlyReturns l).length = l.length := by
  simp [quarterlyReturns, length_pctChange]

/-- **C8.** In the derived performance records, the first recorded quarter's
period return is exactly `0`, and every later recorded quarter's period
return equals the percentage change of its start-asset value relative to the
immediately preceding recorded quarter's start-asset value (provided that
preceding value is nonzero, so that the percentage change is meaningful —
the rational-arithmetic model does not reproduce the float `inf` of a
zero-base percent change). -/
theorem c8_period_returns (l : List ℚ) (i : Nat) (h1 : i + 1 < l.length)
    (h0 : l.get ⟨i, Nat.lt_of_succ_lt h1⟩ ≠ 0) :
    (quarterlyReturns l).get ⟨0, by rw [length_quarterlyReturns]; omega⟩ = 0 ∧
    (quarterlyReturns l).get ⟨i + 1, by rw [length_quarterlyReturns]; exact h1⟩ =
      (l.get ⟨i + 1, h1⟩ - l.get ⟨i, Nat.lt_of_succ_lt h1⟩) /
        l.get ⟨i, Nat.lt_of_succ_lt h1⟩ * 100 := by
  cases l with
  | nil => simp at h1
  | cons x t =>
    constructor
    · simp [quarterlyReturns, pctChange]
    · have hi : i < t.length := by simpa using h1
      simp [quarterlyReturns, pctChange, List.getElem_zipWith]
/-- Witness for C8: start assets `[100, 110]` give returns `[0%, 10%]`. -/
theorem c8_period_returns_witness :
    (quarterlyReturns [(100 : ℚ), 110]).get
        ⟨0, by rw [length_quarterlyReturns]; decide⟩ = 0 ∧
    (quarterlyReturns [(100 : ℚ), 110]).get
        ⟨1, by rw [length_quarterlyReturns]; decide⟩ =
      ((110 : ℚ) - 100) / 100 * 100 :=
  c8_period_returns [100, 110] 0 (by norm_num) (by norm_num)
